import Mathlib

/-!
Verification of `scripts/whitelist_filter.py` (class `WhitelistFilter`).

Strings are modelled as lists of characters (`Str`).  Python's `str.strip`,
`str.split`, `str.lower`, `str.find` and set membership are given explicit
executable definitions, and each method of the class is translated into a
Lean function of the same name.  File I/O is modelled by passing the list of
lines read from a file (`Option (List Str)`, `none` = unreadable) and a flag
for whether the final write succeeds.
-/

namespace WhitelistPy

abbrev Str := List Char

/-- Coerce a Lean string literal to the `List Char` model. -/
def ofStr (s : String) : Str := s.data

/-- Python `str.isspace` characters stripped by `str.strip()` (ASCII range). -/
def pyIsSpace (c : Char) : Bool :=
  c = ' ' || c = '\t' || c = '\n' || c = '\r' || c = '\x0b' || c = '\x0c'

/-- Drop leading characters satisfying `p` (Python `lstrip`). -/
def lstripBy (p : Char → Bool) (s : Str) : Str := s.dropWhile p

/-- Drop trailing characters satisfying `p` (Python `rstrip`). -/
def rstripBy (p : Char → Bool) (s : Str) : Str := (s.reverse.dropWhile p).reverse

/-- Python `str.strip(chars)`: drop the characters from both ends. -/
def stripBy (p : Char → Bool) (s : Str) : Str := rstripBy p (lstripBy p s)

/-- Python `line.strip()` — strip whitespace from both ends. -/
def pyStrip (s : Str) : Str := stripBy pyIsSpace s

/-- Python `line.strip('"')` — strip double quotes from both ends. -/
def stripQuotes (s : Str) : Str := stripBy (fun c => c = '"') s

/-- Python `str.lower()` (ASCII letters, as the repository's data uses). -/
def pyLower (s : Str) : Str := s.map Char.toLower

/-- Python `s.startswith(pat)`. -/
def startsWith (pat s : Str) : Bool := pat.isPrefixOf s

/-- Helper for `pySplit`: accumulates the current word reversed. -/
def pySplitAux : Str → Str → List Str
  | [], acc => if acc.isEmpty then [] else [acc.reverse]
  | c :: rest, acc =>
    if pyIsSpace c then
      if acc.isEmpty then pySplitAux rest []
      else acc.reverse :: pySplitAux rest []
    else pySplitAux rest (c :: acc)

/-- Python `line.split()`: split on whitespace runs, no empty tokens. -/
def pySplit (s : Str) : List Str := pySplitAux s []

/-- Python `s.split(sep)` for a single-character separator: `""` gives `[""]`. -/
def splitOnChar (sep : Char) : Str → List Str
  | [] => [[]]
  | c :: rest =>
    let r := splitOnChar sep rest
    if c = sep then [] :: r
    else
      match r with
      | [] => [[c]]
      | h :: t => (c :: h) :: t

/-- Python `'.'.join(parts)`. -/
def joinDot (parts : List Str) : Str := List.intercalate (ofStr ".") parts

/-- State of the Python class `WhitelistFilter`: the two matching sets plus
the raw `whitelist` set kept for backward compatibility.  Python sets are
modelled as lists queried by membership only. -/
structure WhitelistFilter where
  exact_domains : List Str
  wildcard_domains : List Str
  whitelist : List Str

/-- `WhitelistFilter.__init__`: all three sets empty. -/
def emptyFilter : WhitelistFilter := ⟨[], [], []⟩

/-- Body of the `for line in f` loop of `load_whitelist` (the guards are the
source's `if line and not line.startswith('#')`, `if domain:`, wildcard
versus exact classification, written with early returns of the unchanged
state). -/
def addEntry (f : WhitelistFilter) (rawLine : Str) : WhitelistFilter :=
  let line := pyStrip rawLine
  if line.isEmpty || startsWith (ofStr "#") line then f
  else
    let domain := pyLower (stripQuotes line)
    if domain.isEmpty then f
    else
      let f1 := { f with whitelist := f.whitelist ++ [domain] }
      if startsWith (ofStr "*.") domain then
        let base := domain.drop 2
        if base.isEmpty then f1
        else { f1 with wildcard_domains := f1.wildcard_domains ++ [base] }
      else { f1 with exact_domains := f1.exact_domains ++ [domain] }

/-- `load_whitelist` on the lines of a readable file: sets are reset and the
file's lines are folded through the loop body. -/
def loadFromLines (ls : List Str) : WhitelistFilter := ls.foldl addEntry emptyFilter

/-- `load_whitelist` with unreadable files modelled by `none` (the method
then returns `False` and this model returns no store). -/
def load_whitelist (file : Option (List Str)) : Option WhitelistFilter :=
  match file with
  | none => none
  | some ls => some (loadFromLines ls)

/-- The `for i in range(1, len(parts))` loop of `should_filter_domain`:
test each proper suffix `'.'.join(parts[i:])` against the wildcard set,
short-circuiting on the first hit. -/
def checkParents (w : List Str) : List Str → Bool
  | [] => false
  | _ :: rest =>
    if rest.isEmpty then false
    else w.contains (joinDot rest) || checkParents w rest

/-- `WhitelistFilter.should_filter_domain`. -/
def should_filter_domain (f : WhitelistFilter) (domain : Str) : Bool :=
  if domain.isEmpty || (f.exact_domains.isEmpty && f.wildcard_domains.isEmpty) then
    false
  else
    let d := pyLower domain
    if f.exact_domains.contains d then true
    else if !f.wildcard_domains.isEmpty then
      if f.wildcard_domains.contains d then true
      else checkParents f.wildcard_domains (splitOnChar '.' d)
    else false

/-- `WhitelistFilter._extract_domain` (the leading underscore is dropped). -/
def extract_domain (line0 : Str) : Str :=
  let line := pyStrip line0
  let domain :=
    if startsWith (ofStr "||") line then
      let rest := line.drop 2
      if rest.contains '^' then rest.takeWhile (fun c => c != '^')
      else rest
    else
      match pySplit line with
      | [] => []
      | [t] => t
      | _ :: t :: _ => t
  let d := pyLower (pyStrip domain)
  if startsWith (ofStr "*.") d then d.drop 2 else d

/-- `WhitelistFilter.filter_blocklist_line`: `none` models Python `None`
(line dropped), `some l` models the returned kept line. -/
def filter_blocklist_line (f : WhitelistFilter) (line0 : Str) : Option Str :=
  let line := pyStrip line0
  if line.isEmpty || startsWith (ofStr "#") line then some line
  else
    let domain := extract_domain line
    if !domain.isEmpty && should_filter_domain f domain then none
    else some line

/-- The kept lines accumulated in `filtered_lines` by `filter_blocklist_file`
(without the appended newline). -/
def keptLines (f : WhitelistFilter) (ls : List Str) : List Str :=
  ls.filterMap (filter_blocklist_line f)

/-- The `filtered_count` accumulated by `filter_blocklist_file`. -/
def droppedCount (f : WhitelistFilter) (ls : List Str) : Nat :=
  ls.countP (fun l => (filter_blocklist_line f l).isNone)

/-- `filtered_line + '\n' if filtered_line else '\n'` — the chunk appended to
`filtered_lines` for a kept line. -/
def renderLine (l : Str) : Str := if l.isEmpty then ofStr "\n" else l ++ ofStr "\n"

/-- The full text written to the output file by `filter_blocklist_file`. -/
def outputContent (f : WhitelistFilter) (ls : List Str) : Str :=
  ((keptLines f ls).map renderLine).flatten

/-- `WhitelistFilter.filter_blocklist_file` with I/O modelled explicitly:
`input = none` means the input file cannot be read, `writeOk = false` means
writing the output raises; the `except` clause then returns `(0, 0)`. -/
def filter_blocklist_file (f : WhitelistFilter) (input : Option (List Str))
    (writeOk : Bool) : Nat × Nat :=
  match input with
  | none => (0, 0)
  | some ls => if writeOk then (ls.length, droppedCount f ls) else (0, 0)

/-! ### Spec-side definitions

These follow the wording of the specification (§4.1 `shouldFilter` and §4.2
`extractDomain`), to be compared with the source-derived functions above. -/

/-- `shouldFilter` as the spec words it: return false immediately when the
input is empty or both sets are empty; otherwise lowercase and test, in
order: exact-set membership, wildcard-base membership of the full domain,
then for each start index `i` from 1 to n-1 membership of
`'.'.join(parts[i:])` in the wildcard bases. -/
def shouldFilterSpecAlg (f : WhitelistFilter) (domain : Str) : Bool :=
  if domain.isEmpty || (f.exact_domains.isEmpty && f.wildcard_domains.isEmpty) then
    false
  else
    let d := pyLower domain
    let parts := splitOnChar '.' d
    f.exact_domains.contains d || f.wildcard_domains.contains d ||
      (List.range' 1 (parts.length - 1)).any
        (fun i => f.wildcard_domains.contains (joinDot (parts.drop i)))

/-- `extractDomain` as the spec words it: after trimming, a `||` line yields
the substring between position 2 and the first `^` at or after position 2
(everything after `||` when no `^` exists); otherwise the second
whitespace-separated token when there are at least two, the sole token when
there is one, empty when there are none; the result is trimmed, lowercased
and stripped of a leading `*.`. -/
def extractDomainSpecAlg (line0 : Str) : Str :=
  let line := pyStrip line0
  let domain :=
    if startsWith (ofStr "||") line then
      let afterBars := line.drop 2
      let caret := afterBars.findIdx (fun c => c == '^')
      if caret < afterBars.length then afterBars.take caret else afterBars
    else
      match pySplit line with
      | [] => []
      | [t] => t
      | _ :: t :: _ => t
  let d := pyLower (pyStrip domain)
  if startsWith (ofStr "*.") d then d.drop 2 else d

/-! ### Helper lemmas about the string model -/

theorem dropWhile_dropWhile (p : Char → Bool) (l : Str) :
    (l.dropWhile p).dropWhile p = l.dropWhile p := by
  induction l with
  | nil => rfl
  | cons c t ih =>
    by_cases h : p c
    · simp [List.dropWhile_cons, h, ih]
    · simp [List.dropWhile_cons, h]

theorem rstripBy_idem (p : Char → Bool) (l : Str) :
    rstripBy p (rstripBy p l) = rstripBy p l := by
  unfold rstripBy
  rw [List.reverse_reverse, dropWhile_dropWhile]

theorem rstripBy_cons (p : Char → Bool) (c : Char) (t : Str) (h : p c = false) :
    rstripBy p (c :: t) = c :: rstripBy p t := by
  unfold rstripBy
  rw [show (c :: t).reverse = t.reverse ++ [c] by simp, List.dropWhile_append]
  by_cases he : (t.reverse.dropWhile p).isEmpty
  · rw [if_pos he]
    simp only [List.isEmpty_iff] at he
    rw [he]
    simp [List.dropWhile_cons, h]
  · rw [if_neg he]
    simp

theorem dropWhile_rstripBy (p : Char → Bool) (l : Str) (h : l.dropWhile p = l) :
    (rstripBy p l).dropWhile p = rstripBy p l := by
  cases l with
  | nil => rfl
  | cons c t =>
    have hc : p c = false := by
      by_cases hc : p c
      · exfalso
        rw [List.dropWhile_cons, if_pos hc] at h
        have := (List.dropWhile_sublist (l := t) p).length_le
        rw [h] at this
        simp at this
      · simpa using hc
    rw [rstripBy_cons p c t hc, List.dropWhile_cons, if_neg (by simp [hc])]

theorem stripBy_idem (p : Char → Bool) (l : Str) :
    stripBy p (stripBy p l) = stripBy p l := by
  unfold stripBy lstripBy
  rw [dropWhile_rstripBy p _ (dropWhile_dropWhile p l), rstripBy_idem]

theorem pyStrip_idem (l : Str) : pyStrip (pyStrip l) = pyStrip l :=
  stripBy_idem pyIsSpace l

theorem mem_of_mem_rstripBy {p : Char → Bool} {c : Char} {l : Str}
    (h : c ∈ rstripBy p l) : c ∈ l := by
  unfold rstripBy at h
  rw [List.mem_reverse] at h
  have := (List.dropWhile_sublist p).subset h
  rwa [List.mem_reverse] at this

theorem mem_of_mem_pyStrip {c : Char} {l : Str} (h : c ∈ pyStrip l) : c ∈ l := by
  unfold pyStrip stripBy lstripBy at h
  exact (List.dropWhile_sublist pyIsSpace).subset (mem_of_mem_rstripBy h)

theorem char_toNat_ofNat (m : Nat) (h : m.isValidChar) : (Char.ofNat m).toNat = m := by
  rw [Char.ofNat, dif_pos h]
  rfl

theorem toLower_toLower (c : Char) : c.toLower.toLower = c.toLower := by
  unfold Char.toLower
  by_cases h : c.toNat ≥ 65 ∧ c.toNat ≤ 90
  · rw [if_pos h]
    have hv : Nat.isValidChar (c.toNat + 32) := Or.inl (by omega)
    rw [char_toNat_ofNat _ hv, if_neg (by omega)]
  · rw [if_neg h, if_neg h]

theorem pyLower_pyLower (s : Str) : pyLower (pyLower s) = pyLower s := by
  unfold pyLower
  rw [List.map_map]
  exact List.map_congr_left fun c _ => toLower_toLower c

theorem pyLower_drop (s : Str) (n : Nat) :
    pyLower (s.drop n) = (pyLower s).drop n := by
  unfold pyLower
  rw [List.map_drop]

theorem length_pyLower (s : Str) : (pyLower s).length = s.length := by
  unfold pyLower
  rw [List.length_map]

theorem any_range_shift (g : Nat → Bool) (s n : Nat) :
    (List.range' (s + 1) n).any g = (List.range' s n).any (fun i => g (i + 1)) := by
  induction n generalizing s with
  | zero => rfl
  | succ n ih =>
    rw [List.range'_succ, List.range'_succ, List.any_cons, List.any_cons, ih]

/-! ### Lemmas about line filtering -/

theorem filter_line_eq_some {f : WhitelistFilter} {l r : Str}
    (h : filter_blocklist_line f l = some r) : r = pyStrip l := by
  simp only [filter_blocklist_line] at h
  split at h
  · exact (Option.some_inj.mp h).symm
  · split at h
    · cases h
    · exact (Option.some_inj.mp h).symm

theorem filter_line_pyStrip (f : WhitelistFilter) (l : Str) :
    filter_blocklist_line f (pyStrip l) = filter_blocklist_line f l := by
  simp only [filter_blocklist_line, pyStrip_idem]

theorem filter_line_kept_again {f : WhitelistFilter} {l r : Str}
    (h : filter_blocklist_line f l = some r) :
    filter_blocklist_line f r = some r := by
  have hr := filter_line_eq_some h
  subst hr
  rw [filter_line_pyStrip]
  exact h

/-! ### Lemmas for the `shouldFilter` algorithm equivalence -/

theorem splitOnChar_ne_nil (sep : Char) (s : Str) : splitOnChar sep s ≠ [] := by
  cases s with
  | nil => simp [splitOnChar]
  | cons c rest =>
    simp only [splitOnChar]
    split
    · simp
    · split <;> simp

theorem checkParents_cons_eq (w : List Str) (l : List Str) (x : Str) :
    checkParents w (x :: l) =
      (List.range' 1 l.length).any (fun i => w.contains (joinDot ((x :: l).drop i))) := by
  induction l generalizing x with
  | nil => rfl
  | cons y t ih =>
    have hstep : checkParents w (x :: y :: t) =
        (w.contains (joinDot (y :: t)) || checkParents w (y :: t)) := by
      simp [checkParents]
    rw [hstep, List.length_cons, List.range'_succ, List.any_cons, any_range_shift]
    simp only [List.drop_succ_cons, List.drop_one]
    rw [ih y]
    simp

/-! ### Lemmas for the `extractDomain` algorithm equivalence -/

theorem takeWhile_ne_eq_take_findIdx (l : Str) :
    l.takeWhile (fun c => c != '^') = l.take (l.findIdx (fun c => c == '^')) := by
  induction l with
  | nil => rfl
  | cons c t ih =>
    by_cases h : c = '^'
    · subst h
      rw [List.takeWhile_cons, List.findIdx_cons]
      simp
    · rw [List.takeWhile_cons, List.findIdx_cons]
      have h1 : (c != '^') = true := bne_iff_ne.mpr h
      have h2 : (c == '^') = false := beq_eq_false_iff_ne.mpr h
      rw [h1, h2]
      simp only [cond_false, if_true, List.take_succ_cons]
      rw [ih]

theorem contains_caret_iff (l : Str) :
    l.contains '^' = true ↔ l.findIdx (fun c => c == '^') < l.length := by
  rw [List.findIdx_lt_length, List.contains_iff_exists_mem_beq]
  constructor
  · rintro ⟨a, ha, hb⟩
    rw [beq_iff_eq] at hb
    exact ⟨a, ha, beq_iff_eq.mpr hb.symm⟩
  · rintro ⟨a, ha, hb⟩
    rw [beq_iff_eq] at hb
    exact ⟨a, ha, beq_iff_eq.mpr hb.symm⟩

/-! ### Lemmas for the load invariant -/

/-- A string that is its own lowercasing and non-empty. -/
def LowerNonempty (d : Str) : Prop := pyLower d = d ∧ d ≠ []

theorem lowerNonempty_of_pyLower {s : Str} (h : pyLower s ≠ []) :
    LowerNonempty (pyLower s) :=
  ⟨pyLower_pyLower s, h⟩

theorem addEntry_inv (f : WhitelistFilter) (line : Str)
    (hE : ∀ d ∈ f.exact_domains, LowerNonempty d)
    (hW : ∀ d ∈ f.wildcard_domains, LowerNonempty d) :
    (∀ d ∈ (addEntry f line).exact_domains, LowerNonempty d) ∧
    (∀ d ∈ (addEntry f line).wildcard_domains, LowerNonempty d) := by
  simp only [addEntry]
  split
  · exact ⟨hE, hW⟩
  · split
    · exact ⟨hE, hW⟩
    · split
      · split
        · exact ⟨hE, hW⟩
        · refine ⟨hE, ?_⟩
          intro d hd
          rw [List.mem_append] at hd
          rcases hd with hd | hd
          · exact hW d hd
          · rw [List.mem_singleton] at hd
            subst hd
            rename_i hne
            rw [← pyLower_drop]
            refine lowerNonempty_of_pyLower ?_
            rw [pyLower_drop]
            intro hc
            rw [hc] at hne
            simp at hne
      · refine ⟨?_, hW⟩
        intro d hd
        rw [List.mem_append] at hd
        rcases hd with hd | hd
        · exact hE d hd
        · rw [List.mem_singleton] at hd
          subst hd
          rename_i hne _
          refine lowerNonempty_of_pyLower ?_
          intro hc
          rw [hc] at hne
          simp at hne

theorem foldl_addEntry_inv (ls : List Str) :
    ∀ f : WhitelistFilter,
      (∀ d ∈ f.exact_domains, LowerNonempty d) →
      (∀ d ∈ f.wildcard_domains, LowerNonempty d) →
      (∀ d ∈ (ls.foldl addEntry f).exact_domains, LowerNonempty d) ∧
      (∀ d ∈ (ls.foldl addEntry f).wildcard_domains, LowerNonempty d) := by
  induction ls with
  | nil => intro f hE hW; exact ⟨hE, hW⟩
  | cons l t ih =>
    intro f hE hW
    rw [List.foldl_cons]
    obtain ⟨hE1, hW1⟩ := addEntry_inv f l hE hW
    exact ih _ hE1 hW1

/-! ### Lemmas for file-level counting -/

theorem keptLines_length_add (f : WhitelistFilter) (ls : List Str) :
    (keptLines f ls).length + droppedCount f ls = ls.length := by
  induction ls with
  | nil => rfl
  | cons l t ih =>
    unfold keptLines droppedCount at *
    rw [List.filterMap_cons, List.countP_cons]
    cases h : filter_blocklist_line f l <;> simp [h] <;> omega

theorem startsWith_hash_cons (t : Str) : startsWith (ofStr "#") ('#' :: t) = true := by
  simp [startsWith, ofStr, List.isPrefixOf]

theorem pyStrip_hash_cons (t : Str) :
    pyStrip ('#' :: t) = '#' :: rstripBy pyIsSpace t := by
  unfold pyStrip stripBy lstripBy
  rw [List.dropWhile_cons, if_neg (by decide)]
  exact rstripBy_cons _ _ _ (by decide)

theorem droppedCount_keptLines (f : WhitelistFilter) (ls : List Str) :
    droppedCount f (keptLines f ls) = 0 := by
  induction ls with
  | nil => rfl
  | cons l t ih =>
    unfold keptLines at *
    rw [List.filterMap_cons]
    cases h : filter_blocklist_line f l with
    | none => exact ih
    | some r =>
      unfold droppedCount at *
      rw [List.countP_cons]
      have hkept : (filter_blocklist_line f r).isNone = false := by
        rw [filter_line_kept_again h]
        rfl
      simp [hkept, ih]

theorem caret_branch_eq (rest : Str) :
    (if rest.contains '^' then rest.takeWhile (fun c => c != '^') else rest) =
    (if rest.findIdx (fun c => c == '^') < rest.length then
      rest.take (rest.findIdx (fun c => c == '^')) else rest) := by
  by_cases h : rest.contains '^' = true
  · rw [if_pos h, if_pos ((contains_caret_iff rest).mp h), takeWhile_ne_eq_take_findIdx]
  · have h2 : ¬ rest.findIdx (fun c => c == '^') < rest.length :=
      fun hc => h ((contains_caret_iff rest).mpr hc)
    rw [if_neg h, if_neg h2]

theorem extract_eq_spec (l : Str) : extract_domain l = extractDomainSpecAlg l := by
  simp only [extract_domain, extractDomainSpecAlg, caret_branch_eq]

theorem renderLine_eq (l : Str) : renderLine l = l ++ [('\n' : Char)] := by
  unfold renderLine
  split
  · rename_i h
    rw [List.isEmpty_iff.mp h]
    rfl
  · rfl

theorem count_flatten_renderLine (ks : List Str)
    (hks : ∀ r ∈ ks, ('\n' : Char) ∉ r) :
    ((ks.map renderLine).flatten).count '\n' = ks.length := by
  induction ks with
  | nil => rfl
  | cons r t ih =>
    rw [List.map_cons, List.flatten_cons, List.count_append, renderLine_eq,
      List.count_append]
    have h0 : r.count '\n' = 0 := List.count_eq_zero.mpr (hks r (by simp))
    rw [h0, ih (fun x hx => hks x (by simp [hx]))]
    simp
    omega

theorem keptLines_no_newline (f : WhitelistFilter) (ls : List Str)
    (h : ∀ l ∈ ls, ('\n' : Char) ∉ l) :
    ∀ r ∈ keptLines f ls, ('\n' : Char) ∉ r := by
  intro r hr
  unfold keptLines at hr
  rw [List.mem_filterMap] at hr
  obtain ⟨l, hl, hfl⟩ := hr
  rw [filter_line_eq_some hfl]
  intro hmem
  exact h l hl (mem_of_mem_pyStrip hmem)

/-! ### The claims -/

/-- Claim C4, counterexample: a kept line is NOT always written with the same
text as the input line — a data line with surrounding whitespace is kept as
its trimmed form. -/
theorem claim_C4_cex :
    keptLines emptyFilter [ofStr " badsite.net"] = [ofStr "badsite.net"] ∧
    ofStr "badsite.net" ≠ ofStr " badsite.net" := by decide

/-- Claim C4 (amended): every line kept by `filter_blocklist_line` is written
as the *trimmed* text of the input line; an input line with no leading or
trailing whitespace passes through verbatim. -/
theorem claim_C4_amended (f : WhitelistFilter) (l r : Str)
    (h : filter_blocklist_line f l = some r) :
    r = pyStrip l ∧ (pyStrip l = l → r = l) := by
  have hr := filter_line_eq_some h
  exact ⟨hr, fun he => hr.trans he⟩

/-- Witness for the amended claim C4 at a concrete kept line. -/
theorem claim_C4_witness :
    ofStr "badsite.net" = pyStrip (ofStr "badsite.net") ∧
    (pyStrip (ofStr "badsite.net") = ofStr "badsite.net" →
      ofStr "badsite.net" = ofStr "badsite.net") :=
  claim_C4_amended emptyFilter (ofStr "badsite.net") (ofStr "badsite.net") (by decide)

/-- Claim C5, counterexample: a comment line with trailing whitespace is kept
but returned trimmed, not unchanged. -/
theorem claim_C5_cex :
    filter_blocklist_line emptyFilter (ofStr "# c ") = some (ofStr "# c") ∧
    some (ofStr "# c") ≠ some (ofStr "# c ") := by decide

/-- Claim C5 (amended): for every whitelist store state, a line that is empty
or starts with `#` is always kept (never dropped) and is returned as its
trimmed form; when the line carries no surrounding whitespace it is returned
unchanged. -/
theorem claim_C5_amended (f : WhitelistFilter) (l : Str)
    (h : l = [] ∨ l.head? = some '#') :
    filter_blocklist_line f l = some (pyStrip l) ∧
    (pyStrip l = l → filter_blocklist_line f l = some l) := by
  have hk : filter_blocklist_line f l = some (pyStrip l) := by
    rcases h with h | h
    · subst h
      rfl
    · cases l with
      | nil => cases h
      | cons c t =>
        have hc : c = '#' := by simpa using h
        subst hc
        simp [filter_blocklist_line, pyStrip_hash_cons, startsWith_hash_cons]
  exact ⟨hk, fun he => by rw [hk, he]⟩

/-- Witness for the amended claim C5 at a concrete comment line. -/
theorem claim_C5_witness :
    filter_blocklist_line emptyFilter (ofStr "# x") = some (pyStrip (ofStr "# x")) ∧
    (pyStrip (ofStr "# x") = ofStr "# x" →
      filter_blocklist_line emptyFilter (ofStr "# x") = some (ofStr "# x")) :=
  claim_C5_amended emptyFilter (ofStr "# x") (Or.inr (by decide))

/-- Claim C6: filtering is idempotent — running the file filter on the kept
lines produced by a previous run with the same store drops zero lines. -/
theorem claim_C6 (f : WhitelistFilter) (ls : List Str) :
    filter_blocklist_file f (some (keptLines f ls)) true =
      ((keptLines f ls).length, 0) := by
  simp [filter_blocklist_file, droppedCount_keptLines]

/-- Claim C7: `should_filter_domain` is case-insensitive — inputs with the
same lowercasing get the same answer for every store. -/
theorem claim_C7 (f : WhitelistFilter) (s t : Str) (h : pyLower s = pyLower t) :
    should_filter_domain f s = should_filter_domain f t := by
  have hlen : s.length = t.length := by
    have hl := congrArg List.length h
    simpa [length_pyLower] using hl
  have hempty : s.isEmpty = t.isEmpty := by
    cases s <;> cases t <;> simp_all
  simp only [should_filter_domain, h, hempty]

/-- Witness for claim C7: uppercase and lowercase spellings agree. -/
theorem claim_C7_witness :
    should_filter_domain (loadFromLines [ofStr "example.com"]) (ofStr "EXAMPLE.COM") =
    should_filter_domain (loadFromLines [ofStr "example.com"]) (ofStr "example.com") :=
  claim_C7 _ _ _ (by decide)

/-- Claim C9: `filter_blocklist_file` returns `(totalLines, droppedCount)`
on success and the sentinel `(0, 0)` whenever the input cannot be read or
the output cannot be written. -/
theorem claim_C9 (f : WhitelistFilter) (ls : List Str) (w : Bool) :
    filter_blocklist_file f (some ls) true = (ls.length, droppedCount f ls) ∧
    filter_blocklist_file f none w = (0, 0) ∧
    filter_blocklist_file f (some ls) false = (0, 0) :=
  ⟨rfl, rfl, rfl⟩

/-- Claim C1: exact whitelist entries match only the identical domain, never
its subdomains — with only exact entries loaded, any filtered domain is
(lowercased) itself an exact entry — while wildcard entries match the base
and all subdomains: loading `example.com` does not filter
`sub.example.com`, loading `*.example.com` filters both `sub.example.com`
and `example.com`. -/
theorem claim_C1 :
    should_filter_domain (loadFromLines [ofStr "example.com"])
      (ofStr "sub.example.com") = false ∧
    should_filter_domain (loadFromLines [ofStr "*.example.com"])
      (ofStr "sub.example.com") = true ∧
    should_filter_domain (loadFromLines [ofStr "*.example.com"])
      (ofStr "example.com") = true ∧
    ∀ f : WhitelistFilter, f.wildcard_domains = [] →
      ∀ d : Str, should_filter_domain f d = true →
        f.exact_domains.contains (pyLower d) = true := by
  refine ⟨by decide, by decide, by decide, ?_⟩
  intro f hw d h
  simp only [should_filter_domain, hw, List.isEmpty_nil, Bool.not_true] at h
  split at h
  · cases h
  · split at h
    · assumption
    · simp at h

/-- Witness for claim C1: a concrete store with only exact entries, where a
filtered domain is indeed an exact entry. -/
theorem claim_C1_witness :
    (loadFromLines [ofStr "example.com"]).exact_domains.contains
      (pyLower (ofStr "example.com")) = true :=
  claim_C1.2.2.2 (loadFromLines [ofStr "example.com"]) (by decide)
    (ofStr "example.com") (by decide)

/-- Claim C2: `should_filter_domain` computes exactly the spec's algorithm —
false on empty input or empty sets, otherwise lowercase and short-circuit
through exact membership, wildcard membership, then the progressive suffix
tests for indices 1 to n-1. -/
theorem claim_C2 (f : WhitelistFilter) (d : Str) :
    should_filter_domain f d = shouldFilterSpecAlg f d := by
  simp only [should_filter_domain, shouldFilterSpecAlg]
  split
  · rfl
  · by_cases hE : pyLower d ∈ f.exact_domains
    · simp [hE]
    · by_cases hW : f.wildcard_domains = []
      · simp [hE, hW]
      · by_cases hC : pyLower d ∈ f.wildcard_domains
        · simp [hE, hW, hC]
        · have hE2 : f.exact_domains.contains (pyLower d) = false := by
            simpa using hE
          have hC2 : f.wildcard_domains.contains (pyLower d) = false := by
            simpa using hC
          have hW2 : f.wildcard_domains.isEmpty = false := by
            simpa using hW
          rw [hE2, hC2, hW2]
          obtain ⟨x, l2, hxl⟩ :=
            List.exists_cons_of_ne_nil (splitOnChar_ne_nil '.' (pyLower d))
          rw [hxl, checkParents_cons_eq, List.length_cons, Nat.add_sub_cancel]
          simp

/-- Claim C3: `extract_domain` follows the spec's extraction algorithm for
every line (`||`-lines take the substring before the first `^` at or after
position 2, otherwise the second of two or more whitespace tokens, the sole
token, or empty; then trim, lowercase and strip a leading `*.`), and the
spec's extraction table holds. -/
theorem claim_C3 :
    (∀ l : Str, extract_domain l = extractDomainSpecAlg l) ∧
    extract_domain (ofStr "0.0.0.0 track.adapty.io") = ofStr "track.adapty.io" ∧
    extract_domain (ofStr "127.0.0.1 example.com") = ofStr "example.com" ∧
    extract_domain (ofStr "google.com") = ofStr "google.com" ∧
    extract_domain (ofStr "*.wildcard.com") = ofStr "wildcard.com" ∧
    extract_domain (ofStr "||adapty.io^") = ofStr "adapty.io" ∧
    extract_domain (ofStr "||example.com^$third-party") = ofStr "example.com" :=
  ⟨extract_eq_spec, by decide, by decide, by decide, by decide, by decide,
    by decide⟩

/-- Claim C8, counterexample: the load invariant fails — a whitelist line
wrapping whitespace in double quotes puts an entry with leading and trailing
whitespace into the exact set. -/
theorem claim_C8_cex :
    ofStr " example.com " ∈
      (loadFromLines [ofStr "\" example.com \""]).exact_domains ∧
    pyStrip (ofStr " example.com ") ≠ ofStr " example.com " := by decide

/-- Claim C8 (amended): after every successful load, every string in the
exact set and in the wildcard-base set is lowercase and non-empty (freedom
from surrounding whitespace is not guaranteed, since stripping surrounding
double quotes can expose whitespace). -/
theorem claim_C8_amended (ls : List Str) (d : Str)
    (h : d ∈ (loadFromLines ls).exact_domains ∨
      d ∈ (loadFromLines ls).wildcard_domains) :
    pyLower d = d ∧ d ≠ [] := by
  obtain ⟨hE, hW⟩ := foldl_addEntry_inv ls emptyFilter
    (by intro x hx; cases hx) (by intro x hx; cases hx)
  rcases h with h | h
  · exact hE d h
  · exact hW d h

/-- Witness for the amended claim C8 at a concrete loaded store. -/
theorem claim_C8_witness :
    pyLower (ofStr "example.com") = ofStr "example.com" ∧
    ofStr "example.com" ≠ [] :=
  claim_C8_amended [ofStr "example.com"] (ofStr "example.com")
    (Or.inl (by decide))

/-- Claim C10: when lines hold no newline characters, the output text is the
kept lines each terminated by exactly one newline (an empty kept line is a
bare newline), and the number of lines written — the number of newline
characters — is `totalLines - droppedCount`. -/
theorem claim_C10 (f : WhitelistFilter) (ls : List Str)
    (h : ∀ l ∈ ls, ('\n' : Char) ∉ l) :
    outputContent f ls =
      ((keptLines f ls).map (fun l => l ++ [('\n' : Char)])).flatten ∧
    (keptLines f ls).length = ls.length - droppedCount f ls ∧
    (outputContent f ls).count '\n' = ls.length - droppedCount f ls := by
  have hlen := keptLines_length_add f ls
  have hkept := keptLines_no_newline f ls h
  have hmap : List.map renderLine (keptLines f ls) =
      List.map (fun l => l ++ [('\n' : Char)]) (keptLines f ls) :=
    List.map_congr_left fun x _ => renderLine_eq x
  refine ⟨?_, by omega, ?_⟩
  · unfold outputContent
    rw [hmap]
  · unfold outputContent
    rw [count_flatten_renderLine (keptLines f ls) hkept]
    omega

/-- Witness for claim C10 at a concrete one-line file. -/
theorem claim_C10_witness :
    outputContent emptyFilter [ofStr "a"] =
      ((keptLines emptyFilter [ofStr "a"]).map
        (fun l => l ++ [('\n' : Char)])).flatten ∧
    (keptLines emptyFilter [ofStr "a"]).length =
      [ofStr "a"].length - droppedCount emptyFilter [ofStr "a"] ∧
    (outputContent emptyFilter [ofStr "a"]).count '\n' =
      [ofStr "a"].length - droppedCount emptyFilter [ofStr "a"] :=
  claim_C10 emptyFilter [ofStr "a"] (by decide)

end WhitelistPy
